import Mathlib

/-!
# go-chat-bot: the command parser and the dispatch core

A shallow embedding of `parser.go` and `bot.go`.

Go strings and byte slices are sequences of bytes, here lists of byte values.
A runtime panic (index or slice bound out of range, close of a closed channel)
is an explicit failure value: `none` or `Except.error`.
-/

namespace GoChatBot

/-! ## Strings -/

/-- A Go `string` or `[]byte`: its bytes, in order. -/
abbrev Bytes := List Nat

/-- UTF-8 encoding of one code point. -/
def utf8EncodeRune (r : Nat) : Bytes :=
  if r < 0x80 then [r]
  else if r < 0x800 then [0xC0 + r / 64, 0x80 + r % 64]
  else if r < 0x10000 then [0xE0 + r / 4096, 0x80 + (r / 64) % 64, 0x80 + r % 64]
  else [0xF0 + r / 262144, 0x80 + (r / 4096) % 64, 0x80 + (r / 64) % 64, 0x80 + r % 64]

/-- The bytes of a string literal, as Go stores it. -/
def goStr (s : String) : Bytes :=
  s.toList.flatMap (fun c => utf8EncodeRune c.toNat)

/-! ## parser.go: `cleanString` -/

/-- Go `CharWash` of parser.go. The two compiled regular expressions are literal
one-byte patterns; each is represented by the byte it matches. -/
structure CharWash where
  Char : Nat
  Pair : Nat
  REChar : Nat
  REPair : Nat
  deriving DecidableEq, Repr

/-- The entry of `cw` for the single quote. -/
def cwSingleQuote : CharWash := ⟨39, 39, 39, 39⟩

/-- The entry of `cw` for the double quote. -/
def cwDoubleQuote : CharWash := ⟨34, 34, 34, 34⟩

/-- The entry of `cw` for the parenthesis pair. -/
def cwParen : CharWash := ⟨40, 41, 40, 41⟩

/-- The entries of the map `cw`. A Go `range` over the map visits each entry
once, in an order the language leaves unspecified: a visiting order is a
permutation of this list. -/
def cw : List CharWash := [cwSingleQuote, cwDoubleQuote, cwParen]

/-- The six visiting orders of the three entries of `cw`. -/
def cwOrders : List (List CharWash) :=
  [[cwSingleQuote, cwDoubleQuote, cwParen], [cwSingleQuote, cwParen, cwDoubleQuote],
   [cwDoubleQuote, cwSingleQuote, cwParen], [cwDoubleQuote, cwParen, cwSingleQuote],
   [cwParen, cwSingleQuote, cwDoubleQuote], [cwParen, cwDoubleQuote, cwSingleQuote]]

/-- Start offsets of the matches of a one-byte literal pattern in `b`, where
`b` starts at offset `i` of the buffer. -/
def findFrom (re : Nat) : Nat → Bytes → List Nat
  | _, [] => []
  | i, x :: xs => if x = re then i :: findFrom re (i + 1) xs else findFrom re (i + 1) xs

/-- Go `re.FindAllIndex(b, -1)` for a one-byte literal pattern: every match is
`[i, i+1]`, and the code reads only its start `loc[0]`, which is what is kept. -/
def FindAllIndex (re : Nat) (b : Bytes) : List Nat := findFrom re 0 b

/-- Go's `l[k]` for an `int` index: `none` is the index-out-of-range panic. -/
def sliceIndex? (l : List Nat) (k : Int) : Option Nat :=
  if 0 ≤ k ∧ k < (l.length : Int) then l.get? k.toNat else none

/-- Go `append(ret[:idx], ret[idx+1:]...)`: `none` is the slice-bounds panic of
`ret[idx+1:]` when `idx+1 > len(ret)`. -/
def deleteAt (ret : Bytes) (idx : Nat) : Option Bytes :=
  if idx + 1 ≤ ret.length then some (ret.take idx ++ ret.drop (idx + 1)) else none

/-- What the parenthesis branch computes before its loop: the slice `remove`
and the count `removeNum`. -/
def removePlan (c : CharWash) (ret : Bytes) : List Nat × Int :=
  let foundC := FindAllIndex c.REChar ret
  let foundP := FindAllIndex c.REPair ret
  let removeNum : Int := (foundC.length : Int) - (foundP.length : Int)
  let remove : List Nat := []
  let remove := if removeNum > 0 then foundC else remove
  let remove := if removeNum < 0 then foundP else remove
  let removeNum := if removeNum < 0 then removeNum * -1 else removeNum
  (remove, removeNum)

/-- The loop `for i := 0; i < removeNum; i++` of the parenthesis branch, with
`n` iterations left. Each iteration reads the same entry of `remove`. -/
def removeLoop (remove : List Nat) (removeNum : Int) : Nat → Bytes → Option Bytes
  | 0, ret => some ret
  | n + 1, ret =>
    match sliceIndex? remove ((remove.length : Int) - removeNum) with
    | none => none
    | some idx =>
      match deleteAt ret idx with
      | none => none
      | some ret1 => removeLoop remove removeNum n ret1

/-- The body of the loop over `cw` in `cleanString`, for one entry. -/
def washOne (c : CharWash) (ret : Bytes) : Option Bytes :=
  if c.Char = c.Pair then
    let found := FindAllIndex c.REChar ret
    if found.length % 2 > 0 then
      match sliceIndex? found ((found.length : Int) - 1) with
      | none => none
      | some idx => deleteAt ret idx
    else some ret
  else
    let plan := removePlan c ret
    removeLoop plan.1 plan.2 plan.2.toNat ret

/-- The loop over the map entries, visited in the given order. -/
def washAll : List CharWash → Bytes → Option Bytes
  | [], ret => some ret
  | c :: rest, ret =>
    match washOne c ret with
    | none => none
    | some ret1 => washAll rest ret1

/-- Go `cleanString` of parser.go, for a visiting order of the map `cw`. -/
def cleanString (order : List CharWash) (s : Bytes) : Option Bytes :=
  washAll order s

/-! ## The Go library functions `parse` calls -/

/-- The code points of `unicode.IsSpace`: tab, line feed, vertical tab, form
feed, carriage return, space, U+0085, U+00A0, U+1680, U+2000 to U+200A,
U+2028, U+2029, U+202F, U+205F, U+3000. -/
def unicodeSpaces : List Nat :=
  [0x09, 0x0A, 0x0B, 0x0C, 0x0D, 0x20, 0x85, 0xA0, 0x1680,
   0x2000, 0x2001, 0x2002, 0x2003, 0x2004, 0x2005, 0x2006, 0x2007, 0x2008, 0x2009, 0x200A,
   0x2028, 0x2029, 0x202F, 0x205F, 0x3000]

/-- Number of bytes of the white-space rune `s` starts with, `0` when it
starts with none. -/
def leadingSpaceLen (s : Bytes) : Nat :=
  match (unicodeSpaces.map utf8EncodeRune).find? (fun w => w.isPrefixOf s) with
  | some w => w.length
  | none => 0

/-- Removal of the leading white space, at most `n` runes of it. -/
def trimLeftSpaceN : Nat → Bytes → Bytes
  | 0, s => s
  | n + 1, s =>
    match leadingSpaceLen s with
    | 0 => s
    | k + 1 => trimLeftSpaceN n (s.drop (k + 1))

/-- Number of bytes of the white-space rune `s` ends with, `0` when it ends
with none. -/
def trailingSpaceLen (s : Bytes) : Nat :=
  match (unicodeSpaces.map utf8EncodeRune).find? (fun w => w.reverse.isPrefixOf s.reverse) with
  | some w => w.length
  | none => 0

/-- Removal of the trailing white space, at most `n` runes of it. -/
def trimRightSpaceN : Nat → Bytes → Bytes
  | 0, s => s
  | n + 1, s =>
    match trailingSpaceLen s with
    | 0 => s
    | k + 1 => trimRightSpaceN n (s.take (s.length - (k + 1)))

/-- Go's `strings.TrimSpace`: the string without its leading and trailing
white space, as Unicode defines it. -/
def TrimSpace (s : Bytes) : Bytes :=
  let t := trimLeftSpaceN s.length s
  trimRightSpaceN t.length t

/-- Go's `strings.HasPrefix`. -/
def HasPrefix (s pre : Bytes) : Bool := pre.isPrefixOf s

/-- Go's `strings.TrimPrefix`. -/
def TrimPrefix (s pre : Bytes) : Bytes :=
  if HasPrefix s pre then s.drop pre.length else s

/-- Go's `strings.SplitN(s, " ", 2)`: split at the first space byte, if any. -/
def SplitNSpace2 (s : Bytes) : List Bytes :=
  let m := s.indexOf 32
  if m < s.length then [s.take m, s.drop (m + 1)] else [s]

/-- Lower case of an ASCII byte. -/
def asciiLower (b : Nat) : Nat := if 65 ≤ b ∧ b ≤ 90 then b + 32 else b

/-- The functions of other packages that `parse` calls and whose code is not
part of the repository: the transliteration `unidecode.Unidecode`, the case
mapping `strings.Map(unicode.ToLower, s)` that `strings.ToLower` applies to a
string with a non-ASCII byte, and `shellwords.Parse`, whose error is given by
its message. -/
structure Libs where
  Unidecode : Bytes → Bytes
  MapToLower : Bytes → Bytes
  shellwordsParse : Bytes → Except Bytes (List Bytes)

/-- Go's `strings.ToLower`: an ASCII-only string has its letters `A` to `Z`
lowered byte by byte, another string goes through the Unicode case mapping. -/
def ToLower (lib : Libs) (s : Bytes) : Bytes :=
  if s.all (fun b => b < 128) then s.map asciiLower else lib.MapToLower s

/-! ## parser.go: `parse` -/

/-- Go `CmdPrefix` of bot.go: the string `!`. -/
def CmdPrefix : Bytes := [33]

/-- Go `ChannelData`, with the fields bot.go sets. -/
structure ChannelData where
  Protocol : Bytes
  Server : Bytes
  Channel : Bytes
  deriving DecidableEq, Repr

/-- Modelled from the spec: the declaration of `User` is outside the given
files; the spec describes it as the sender identity (nick or handle), opaque
to the core, which only passes it on. -/
structure User where
  Nick : Bytes
  deriving DecidableEq, Repr

/-- Go `Message`, with the field the core reads. -/
structure Message where
  Text : Bytes
  deriving DecidableEq, Repr

/-- Go `Cmd`, with the fields `parse` fills. A nil pointer is `none`. -/
structure Cmd where
  Raw : Bytes
  Channel : Bytes
  ChannelData : Option ChannelData
  User : Option User
  Message : Bytes
  MessageData : Option GoChatBot.Message
  Command : Bytes
  RawArgs : Bytes
  Args : List Bytes
  deriving DecidableEq, Repr

/-- Go `parse` of parser.go, for a visiting order of the map `cw` inside
`cleanString`. The channel pointer is not nil. The outer `none` is a panic;
otherwise the result is the pair of the command pointer and the error, each
`none` when nil, the error given by its message. -/
def parse (lib : Libs) (order : List CharWash) (s : Bytes) (channel : ChannelData)
    (user : Option User) : Option (Option Cmd × Option Bytes) :=
  let c : Cmd := ⟨s, [], none, none, [], none, [], [], []⟩
  let s := TrimSpace s
  if !HasPrefix s CmdPrefix then some (none, none)
  else
    let c := { c with Channel := TrimSpace channel.Channel }
    let c := { c with ChannelData := some channel }
    let c := { c with User := user }
    let c := { c with Message := TrimPrefix s CmdPrefix }
    let c := { c with Message := TrimSpace c.Message }
    if c.Message = [] then some (none, none)
    else
      let pieces := SplitNSpace2 c.Message
      match pieces.get? 0 with
      | none => none
      | some piece0 =>
        let c := { c with Command := ToLower lib (lib.Unidecode piece0) }
        if pieces.length > 1 then
          match pieces.get? 1 with
          | none => none
          | some piece1 =>
            let c := { c with RawArgs := TrimSpace piece1 }
            match cleanString order c.RawArgs with
            | none => none
            | some cleaned =>
              match lib.shellwordsParse (lib.Unidecode cleaned) with
              | Except.error err => some (none, some (goStr "Error parsing arguments: " ++ err))
              | Except.ok parsedArgs =>
                let c := { c with Args := parsedArgs }
                let c := { c with MessageData := some ⟨c.Message⟩ }
                some (some c, none)
        else
          let c := { c with MessageData := some ⟨c.Message⟩ }
          some (some c, none)

/-- Fields separated by blanks: what `shellwords.Parse` returns for text made
of plain words, without quotes, escapes or shell metacharacters. -/
def plainFields (s : Bytes) : List Bytes :=
  (s.splitOn 32).filter (fun w => w ≠ [])

/-- The library functions on plain ASCII text: the transliteration leaves ASCII
text as it is, and a line of plain words is split at its blanks. -/
def asciiLibs : Libs :=
  ⟨fun s => s, fun s => s, fun s => Except.ok (plainFields s)⟩

/-! ## bot.go -/

/-- Go `MsgBuffer` of bot.go: the capacity of the channel `msgsToSend`. -/
def MsgBuffer : Nat := 100

/-- Go `responseMessage` of bot.go. -/
structure responseMessage where
  target : Bytes
  message : Bytes
  sender : Option User
  deriving DecidableEq, Repr

/-- An `ErrorHandler` function value: the package's own `logErrorHandler`, or
a function of the caller, told apart by a number. -/
inductive ErrorHandler where
  | logErrorHandler
  | callerFunc (id : Nat)
  deriving DecidableEq, Repr

/-- Go `Handlers` of bot.go; a nil function value is `none`. The response handler
is a function of the caller, told apart by a number. -/
structure Handlers where
  Response : Option Nat
  Errored : Option ErrorHandler
  deriving DecidableEq, Repr

/-- Go `Config` of bot.go. -/
structure Config where
  Protocol : Bytes
  Server : Bytes
  deriving DecidableEq, Repr

/-- State of a Go channel used as a signal: nil, made and open, or closed. -/
inductive ChanState where
  | nilChan
  | isOpen
  | closed
  deriving DecidableEq, Repr

/-- A Go runtime panic. -/
inductive Panic where
  | closeOfClosedChannel
  | closeOfNilChannel
  deriving DecidableEq, Repr

/-- Go `Bot` of bot.go. `msgsToSend` holds the buffered values of the channel,
oldest first; `done` is the state of the signal channel. The scheduler handle
`cron` belongs to another package and is left out. -/
structure Bot where
  handlers : Handlers
  disabledCmds : List Bytes
  msgsToSend : List responseMessage
  done : ChanState
  Protocol : Bytes
  Server : Bytes
  deriving DecidableEq, Repr

/-- Go `MessageStream`: the handle a stream listener makes, its two channels. -/
structure MessageStream where
  Data : ChanState
  Done : ChanState
  deriving DecidableEq, Repr

/-- Go `messageStreamKey`, as bot.go fills it. -/
structure messageStreamKey where
  Protocol : Bytes
  Server : Bytes
  StreamName : Bytes
  deriving DecidableEq, Repr

/-- Go `MessageStreamConfig`, with the two fields bot.go reads. `MsgFunc` is
given by what it returns: `none` for a nil error, else the error's message. -/
structure MessageStreamConfig where
  StreamName : Bytes
  MsgFunc : MessageStream → Option Bytes

/-- What a method of bot.go does outside the `Bot` value, in order. -/
inductive Event where
  | erroredCall (h : ErrorHandler) (msg : Bytes) (err : Bytes)
  | lockStreams
  | registerStream (key : messageStreamKey) (ms : MessageStream)
  | unlockStreams
  | handleMessageStream (streamName : Bytes) (ms : MessageStream)
  deriving DecidableEq, Repr

/-- Go `New` of bot.go, as far as the `Bot` value goes: the default error handler
is filled in, the queue is made empty with capacity `MsgBuffer`, the done
channel is made. The goroutines it starts are the consumer `processMessages`
and the stream listeners (`streamListener` below). -/
def New (h : Handlers) (bc : Config) : Bot :=
  let h := if h.Errored = none then { h with Errored := some ErrorHandler.logErrorHandler } else h
  { handlers := h
    disabledCmds := []
    msgsToSend := []
    done := ChanState.isOpen
    Protocol := bc.Protocol
    Server := bc.Server }

/-- Go `Bot.errored` of bot.go: the error callback is called when it is not nil. -/
def errored (b : Bot) (msg : Bytes) (err : Bytes) : List Event :=
  match b.handlers.Errored with
  | some h => [Event.erroredCall h msg err]
  | none => []

/-- The body of the goroutine `startMessageStreams` starts for one stream
configuration. -/
def streamListener (b : Bot) (config : MessageStreamConfig) : List Event :=
  let ms : MessageStream := ⟨ChanState.isOpen, ChanState.isOpen⟩
  let err := config.MsgFunc ms
  let reported :=
    match err with
    | some e => errored b (goStr "MessageStream " ++ config.StreamName ++ goStr " failed ") e
    | none => []
  let msKey : messageStreamKey := ⟨b.Protocol, b.Server, config.StreamName⟩
  [Event.lockStreams] ++ reported ++
    [Event.registerStream msKey ms, Event.unlockStreams,
     Event.handleMessageStream config.StreamName ms]

/-- Go `Bot.startMessageStreams`: one listener for each registered configuration. -/
def startMessageStreams (b : Bot) (messageStreamConfigs : List MessageStreamConfig) :
    List (List Event) :=
  messageStreamConfigs.map (streamListener b)

/-- Go `FilterCmd`, as `SendMessage` fills it. -/
structure FilterCmd where
  Target : Bytes
  ChannelData : Option ChannelData
  Message : Bytes
  User : Option User
  deriving DecidableEq, Repr

/-- Go `PassiveCmd`, as `MessageReceived` fills it. -/
structure PassiveCmd where
  Raw : Bytes
  MessageData : Option Message
  Channel : Bytes
  ChannelData : Option ChannelData
  User : Option User
  deriving DecidableEq, Repr

/-- The parts of the package that bot.go uses and that are declared in its
other files: the constant `helpCommand`, the outbound filter chain
`executeFilterCommands`, given by the message it returns, and the inbound
filter chain `executeMessageReceiveFilters`, which is handed pointers and is
given by what it leaves in the message and in the command. -/
structure Dispatch where
  helpCommand : Bytes
  executeFilterCommands : FilterCmd → Bytes
  filteredMessage : Message → Option Cmd → Message
  filteredCmd : Message → Cmd → Cmd

/-- Modelled from the spec: `isDisabled` is declared outside bot.go; the spec
says that dispatch stops "if the command name is in the disabled set", the
set being the field `disabledCmds`. -/
def isDisabled (b : Bot) (cmd : Bytes) : Bool :=
  decide (cmd ∈ b.disabledCmds)

/-- Go `Bot.SendMessage` of bot.go, with the consumer goroutine not taking a
message meanwhile: the `select` sends when the buffer has room and takes the
`default` branch when the buffer is full. -/
def SendMessage (env : Dispatch) (b : Bot) (target : Bytes) (cd : Option ChannelData)
    (message : Bytes) (sender : Option User) : Bot × List Event :=
  let message := env.executeFilterCommands ⟨target, cd, message, sender⟩
  if message = [] then (b, [])
  else if b.msgsToSend.length < MsgBuffer then
    ({ b with msgsToSend := b.msgsToSend ++ [⟨target, message, sender⟩] }, [])
  else (b, errored b (goStr "Failed to queue message to send.") (goStr "Too busy"))

/-- The arguments of one `SendMessage` call. -/
structure SendCall where
  target : Bytes
  cd : Option ChannelData
  message : Bytes
  sender : Option User
  deriving DecidableEq, Repr

/-- A sequence of `SendMessage` calls, one after the other, with the events
they cause. -/
def sendAll (env : Dispatch) : Bot → List SendCall → Bot × List Event
  | b, [] => (b, [])
  | b, c :: rest =>
    let r1 := SendMessage env b c.target c.cd c.message c.sender
    let r2 := sendAll env r1.1 rest
    (r2.1, r1.2 ++ r2.2)

/-- The response a call enqueues: the target, the filtered message, the sender. -/
def SendCall.response (env : Dispatch) (c : SendCall) : responseMessage :=
  ⟨c.target, env.executeFilterCommands ⟨c.target, c.cd, c.message, c.sender⟩, c.sender⟩

/-- Go `Bot.Close` of bot.go: `close(b.done)`, which panics on a closed or nil
channel. -/
def Close (b : Bot) : Except Panic Bot :=
  match b.done with
  | ChanState.isOpen => Except.ok { b with done := ChanState.closed }
  | ChanState.closed => Except.error Panic.closeOfClosedChannel
  | ChanState.nilChan => Except.error Panic.closeOfNilChannel

/-- A call `MessageReceived` makes on the bot. -/
inductive Call where
  | SendMessage (target : Bytes) (cd : Option ChannelData) (message : Bytes)
      (sender : Option User)
  | executeMessageReceiveFilters (message : Message) (command : Option Cmd)
  | executePassiveCommands (cmd : PassiveCmd)
  | help (c : Cmd)
  | handleCmd (c : Cmd)
  deriving DecidableEq, Repr

/-- Go `Bot.MessageReceived` of bot.go, given by the calls it makes, in order, for
a channel pointer that is not nil. `none` is a panic inside `parse`. -/
def MessageReceived (lib : Libs) (order : List CharWash) (env : Dispatch) (b : Bot)
    (channel : ChannelData) (message : Message) (sender : Option User) : Option (List Call) :=
  match parse lib order message.Text channel sender with
  | none => none
  | some (_, some err) => some [Call.SendMessage channel.Channel (some channel) err sender]
  | some (command, none) =>
    let something :=
      (match command with
        | some c => decide (c.Command ≠ [])
        | none => false) || decide (message.Text ≠ [])
    let calls := if something then [Call.executeMessageReceiveFilters message command] else []
    let message1 := if something then env.filteredMessage message command else message
    let command1 := if something then command.map (env.filteredCmd message) else command
    match command1 with
    | none =>
      some (calls ++ [Call.executePassiveCommands
        ⟨message1.Text, some message1, channel.Channel, some channel, sender⟩])
    | some c =>
      if isDisabled b c.Command then some calls
      else if c.Command = env.helpCommand then some (calls ++ [Call.help c])
      else some (calls ++ [Call.handleCmd c])

/-- Whether a call is one of those a disabled command must not cause: the
handler path, the help path, or a message sent to the channel. -/
def Call.isReply : Call → Bool
  | Call.SendMessage _ _ _ _ => true
  | Call.help _ => true
  | Call.handleCmd _ => true
  | _ => false

/-- Filters that only observe, and `help` as the reserved token. -/
def exampleDispatch : Dispatch :=
  ⟨goStr "help", fun f => f.Message, fun m _ => m, fun _ c => c⟩

/-- An inbound filter chain that renames every command to `ping`. -/
def renamingDispatch : Dispatch :=
  ⟨goStr "help", fun f => f.Message, fun m _ => m, fun _ c => { c with Command := goStr "ping" }⟩

/-- A stream configuration whose setup function fails. -/
def failingStream : MessageStreamConfig :=
  ⟨goStr "feed", fun _ => some (goStr "connection refused")⟩

/-- The part of a message before its first space byte (all of it when it has
none). -/
def spaceToken (m : Bytes) : Bytes :=
  m.takeWhile (fun b => b ≠ 32)

/-- The first white-space-separated token, in the spec's words: everything up
to the first white-space rune, tabs and newlines included. -/
def whitespaceToken : Bytes → Bytes
  | [] => []
  | x :: xs => if leadingSpaceLen (x :: xs) = 0 then x :: whitespaceToken xs else []

/-- The channel of the examples. -/
def exampleChannel : ChannelData := ⟨goStr "irc", goStr "irc.example.org", goStr "#go-bot"⟩

/-- What `parse` builds for `!Echo hello world` on the example channel. -/
def exampleEchoCmd : Cmd :=
  { Raw := goStr "!Echo hello world"
    Channel := goStr "#go-bot"
    ChannelData := some exampleChannel
    User := none
    Message := goStr "Echo hello world"
    MessageData := some ⟨goStr "Echo hello world"⟩
    Command := goStr "echo"
    RawArgs := goStr "hello world"
    Args := [goStr "hello", goStr "world"] }

/-- The calls of the example: 103 sends of `ping` to one channel. -/
def exampleCalls : List SendCall :=
  List.replicate 103 ⟨goStr "#go-bot", some exampleChannel, goStr "ping", none⟩

/-- What `parse` builds for `!help` on the example channel. -/
def exampleHelpCmd : Cmd :=
  { Raw := goStr "!help"
    Channel := goStr "#go-bot"
    ChannelData := some exampleChannel
    User := none
    Message := goStr "help"
    MessageData := some ⟨goStr "help"⟩
    Command := goStr "help"
    RawArgs := []
    Args := [] }

/-- A fresh bot with `help` disabled. -/
def exampleBot : Bot :=
  { New ⟨none, none⟩ ⟨goStr "irc", goStr "irc.example.org"⟩ with disabledCmds := [goStr "help"] }

/-- The claimed result for one delimiter, in the spec's words: `s` with the
last occurrence of `c` deleted (nothing when `c` does not occur). -/
def deleteLast (c : Nat) (s : Bytes) : Bytes :=
  (s.reverse.erase c).reverse

/-- The spec's rule for a symmetric delimiter: when it occurs an odd number of
times, drop its last occurrence. -/
def deleteLastIfOdd (c : Nat) (s : Bytes) : Bytes :=
  if s.count c % 2 = 1 then deleteLast c s else s

/-- The spec's rule for the parenthesis pair when one side has exactly one
occurrence more than the other: drop the last occurrence of that side. -/
def dropSurplusParen (s : Bytes) : Bytes :=
  if s.count 40 = s.count 41 + 1 then deleteLast 40 s
  else if s.count 41 = s.count 40 + 1 then deleteLast 41 s
  else s

/-- The spec's rule for both quote characters. -/
def dropOddQuotes (s : Bytes) : Bytes :=
  deleteLastIfOdd 34 (deleteLastIfOdd 39 s)

/-! ## Lemmas on `cleanString` -/

theorem findFrom_length_le (re : Nat) :
    ∀ (xs : Bytes) (i : Nat), (findFrom re i xs).length ≤ xs.length := by
  intro xs
  induction xs with
  | nil => intro i; simp [findFrom]
  | cons x t ih =>
    intro i
    have := ih (i + 1)
    by_cases h : x = re
    · simp [findFrom, h]; omega
    · simp [findFrom, h]; omega

/-- The `k`-th match offset exists, lies in the buffer, and leaves room after
it for all the later matches. -/
theorem findFrom_get_bound (re : Nat) :
    ∀ (xs : Bytes) (i k : Nat), k < (findFrom re i xs).length →
      ∃ idx, (findFrom re i xs).get? k = some idx ∧ i ≤ idx ∧
        idx + ((findFrom re i xs).length - k) ≤ i + xs.length := by
  intro xs
  induction xs with
  | nil => intro i k hk; simp [findFrom] at hk
  | cons x t ih =>
    intro i k hk
    have hlen := findFrom_length_le re t (i + 1)
    by_cases h : x = re
    · simp only [findFrom, h, if_true, List.length_cons] at hk ⊢
      cases k with
      | zero => exact ⟨i, by simp, le_refl _, by omega⟩
      | succ k =>
        obtain ⟨idx, h1, h2, h3⟩ := ih (i + 1) k (by omega)
        exact ⟨idx, by simpa using h1, by omega, by omega⟩
    · simp only [findFrom, h, if_false] at hk ⊢
      obtain ⟨idx, h1, h2, h3⟩ := ih (i + 1) k hk
      exact ⟨idx, h1, by omega, by simp only [List.length_cons]; omega⟩

theorem sliceIndex?_natCast (l : List Nat) (k : Nat) (hk : k < l.length) :
    sliceIndex? l (k : Int) = l.get? k := by
  unfold sliceIndex?
  rw [if_pos ⟨by omega, by omega⟩]
  simp

theorem deleteAt_eq (ret : Bytes) (idx : Nat) (h : idx + 1 ≤ ret.length) :
    deleteAt ret idx = some (ret.take idx ++ ret.drop (idx + 1)) := by
  unfold deleteAt
  rw [if_pos h]

/-- Deleting `n` times at the same index removes the `n` bytes that start
there. -/
theorem removeLoop_eq (remove : List Nat) (removeNum : Int) (idx : Nat)
    (hidx : sliceIndex? remove ((remove.length : Int) - removeNum) = some idx) :
    ∀ (n : Nat) (ret : Bytes), idx + n ≤ ret.length →
      removeLoop remove removeNum n ret = some (ret.take idx ++ ret.drop (idx + n)) := by
  intro n
  induction n with
  | zero => intro ret _; simp [removeLoop]
  | succ n ih =>
    intro ret hlen
    have hlen1 : (ret.take idx ++ ret.drop (idx + 1)).length = ret.length - 1 := by
      simp [List.length_append, List.length_take, List.length_drop]; omega
    have htake : (ret.take idx ++ ret.drop (idx + 1)).take idx = ret.take idx := by
      rw [List.take_append_of_le_length (by simp [List.length_take]; omega)]
      rw [List.take_take]; simp
    have hdrop : (ret.take idx ++ ret.drop (idx + 1)).drop (idx + n)
        = ret.drop (idx + (n + 1)) := by
      have hl : (ret.take idx).length = idx := by simp [List.length_take]; omega
      rw [List.drop_append_eq_append_drop, hl]
      rw [List.drop_eq_nil_of_le (by omega)]
      simp only [List.nil_append, List.drop_drop]
      congr 1; omega
    simp only [removeLoop, hidx]
    rw [deleteAt_eq ret idx (by omega)]
    simp only []
    rw [ih _ (by omega), htake, hdrop]

/-- The plan of the parenthesis branch is executable: `removeNum` is not
negative and, when it is positive, the entry `remove[len(remove)-removeNum]`
exists and is followed in the buffer by at least `removeNum - 1` bytes. -/
theorem removePlan_spec (c : CharWash) (ret : Bytes) :
    0 ≤ (removePlan c ret).2 ∧
    ((removePlan c ret).2 = 0 ∨
      ∃ idx, sliceIndex? (removePlan c ret).1
          (((removePlan c ret).1.length : Int) - (removePlan c ret).2) = some idx ∧
        idx + (removePlan c ret).2.toNat ≤ ret.length) := by
  unfold removePlan
  simp only []
  set foundC := FindAllIndex c.REChar ret with hC
  set foundP := FindAllIndex c.REPair ret with hP
  rcases lt_trichotomy ((foundC.length : Int) - (foundP.length : Int)) 0 with hlt | heq | hgt
  · have hnot : ¬ ((foundC.length : Int) - (foundP.length : Int) > 0) := by omega
    simp only [hlt, hnot, if_true, if_false]
    refine ⟨by omega, Or.inr ?_⟩
    obtain ⟨idx, h1, _, h3⟩ := findFrom_get_bound c.REPair ret 0 foundC.length (by
      show foundC.length < foundP.length
      omega)
    refine ⟨idx, ?_, ?_⟩
    · have : ((foundP.length : Int) - ((foundC.length : Int) - (foundP.length : Int)) * -1)
          = ((foundC.length : Nat) : Int) := by omega
      rw [this, sliceIndex?_natCast _ _ (by omega)]
      exact h1
    · have h3' : idx + (foundP.length - foundC.length) ≤ ret.length := by simpa using h3
      omega
  · simp [heq]
  · have hnot : ¬ ((foundC.length : Int) - (foundP.length : Int) < 0) := by omega
    simp only [gt_iff_lt, hgt, hnot, if_true, if_false]
    refine ⟨by omega, Or.inr ?_⟩
    obtain ⟨idx, h1, _, h3⟩ := findFrom_get_bound c.REChar ret 0 foundP.length (by
      show foundP.length < foundC.length
      omega)
    refine ⟨idx, ?_, ?_⟩
    · have : ((foundC.length : Int) - ((foundC.length : Int) - (foundP.length : Int)))
          = ((foundP.length : Nat) : Int) := by omega
      rw [this, sliceIndex?_natCast _ _ (by omega)]
      exact h1
    · have h3' : idx + (foundC.length - foundP.length) ≤ ret.length := by simpa using h3
      omega

/-- One entry of `cw`, or any other `CharWash`, is processed without a panic. -/
theorem washOne_total (c : CharWash) (ret : Bytes) : ∃ r, washOne c ret = some r := by
  unfold washOne
  by_cases hsym : c.Char = c.Pair
  · simp only [hsym, if_true]
    by_cases hodd : (FindAllIndex c.REChar ret).length % 2 > 0
    · simp only [hodd, if_true]
      have hpos : 0 < (FindAllIndex c.REChar ret).length := by omega
      obtain ⟨idx, h1, _, h3⟩ := findFrom_get_bound c.REChar ret 0
        ((FindAllIndex c.REChar ret).length - 1) (by unfold FindAllIndex at hpos ⊢; omega)
      have hcast : (((FindAllIndex c.REChar ret).length : Int) - 1)
          = (((FindAllIndex c.REChar ret).length - 1 : Nat) : Int) := by omega
      rw [hcast, sliceIndex?_natCast _ _ (by omega)]
      unfold FindAllIndex at hpos h1 h3 ⊢
      rw [h1]
      simp only []
      rw [deleteAt_eq ret idx (by omega)]
      exact ⟨_, rfl⟩
    · simp only [hodd, if_false]
      exact ⟨_, rfl⟩
  · simp only [hsym, if_false]
    obtain ⟨hnn, hz | ⟨idx, h1, h2⟩⟩ := removePlan_spec c ret
    · rw [hz]; exact ⟨ret, rfl⟩
    · rw [removeLoop_eq _ _ idx h1 _ ret h2]
      exact ⟨_, rfl⟩

theorem washAll_total : ∀ (order : List CharWash) (ret : Bytes),
    ∃ r, washAll order ret = some r := by
  intro order
  induction order with
  | nil => intro ret; exact ⟨ret, rfl⟩
  | cons c rest ih =>
    intro ret
    obtain ⟨r1, h1⟩ := washOne_total c ret
    obtain ⟨r, h⟩ := ih r1
    exact ⟨r, by simp [washAll, h1, h]⟩

/-! ### The quote branch deletes the last occurrence -/

theorem perm_cw_mem_cwOrders (order : List CharWash) (h : order.Perm cw) :
    order ∈ cwOrders := by
  have hlen := h.length_eq
  have hnd : order.Nodup := h.nodup_iff.mpr (by decide)
  have hsub := h.subset
  match order, hlen, hnd, hsub with
  | [x, y, z], _, hnd, hsub =>
    have hx : x ∈ cw := hsub (by simp)
    have hy : y ∈ cw := hsub (by simp)
    have hz : z ∈ cw := hsub (by simp)
    simp only [cw, List.mem_cons, List.mem_singleton, List.not_mem_nil, or_false] at hx hy hz
    rcases hx with rfl | rfl | rfl <;> rcases hy with rfl | rfl | rfl <;>
      rcases hz with rfl | rfl | rfl <;>
      first
        | exact absurd hnd (by decide)
        | decide

/-- Each of the six listed orders visits every entry of `cw` once. -/
theorem cwOrders_perm : ∀ order ∈ cwOrders, order.Perm cw := by
  decide

theorem findFrom_length (re : Nat) :
    ∀ (xs : Bytes) (i : Nat), (findFrom re i xs).length = xs.count re := by
  intro xs
  induction xs with
  | nil => intro i; simp [findFrom]
  | cons x t ih =>
    intro i
    by_cases h : x = re
    · simp [findFrom, h, ih (i + 1)]
    · simp [findFrom, h, ih (i + 1), List.count_cons]

theorem FindAllIndex_length (re : Nat) (b : Bytes) :
    (FindAllIndex re b).length = b.count re :=
  findFrom_length re b 0

theorem deleteLast_cons_of_mem (c x : Nat) (t : Bytes) (h : c ∈ t) :
    deleteLast c (x :: t) = x :: deleteLast c t := by
  unfold deleteLast
  rw [List.reverse_cons, List.erase_append_left _ (List.mem_reverse.mpr h)]
  simp

theorem deleteLast_cons_of_not_mem (c x : Nat) (t : Bytes) (h : c ∉ t) :
    deleteLast c (x :: t) = if x = c then t else x :: t := by
  unfold deleteLast
  rw [List.reverse_cons, List.erase_append_right _ (fun hm => h (List.mem_reverse.mp hm))]
  by_cases hx : x = c
  · subst hx; simp
  · have hne : ¬ (x == c) = true := by simpa using hx
    simp [List.erase_cons, hx, hne]

/-- The last match offset is where the last occurrence stands, and deleting
the byte there is `deleteLast`. -/
theorem findFrom_last_delete (re : Nat) :
    ∀ (xs : Bytes) (i : Nat), 0 < (findFrom re i xs).length →
      ∃ idx, (findFrom re i xs).get? ((findFrom re i xs).length - 1) = some idx ∧ i ≤ idx ∧
        idx - i + 1 ≤ xs.length ∧
        xs.take (idx - i) ++ xs.drop (idx - i + 1) = deleteLast re xs := by
  intro xs
  induction xs with
  | nil => intro i h; simp [findFrom] at h
  | cons x t ih =>
    intro i hpos
    by_cases hmem : re ∈ t
    · have hcnt : 0 < (findFrom re (i + 1) t).length := by
        rw [findFrom_length]; exact List.count_pos_iff.mpr hmem
      obtain ⟨idx, h1, h2, h3, h4⟩ := ih (i + 1) hcnt
      refine ⟨idx, ?_, by omega, by simp only [List.length_cons]; omega, ?_⟩
      · by_cases hx : x = re
        · simp only [findFrom, hx, if_true, List.length_cons, Nat.add_sub_cancel]
          have : (findFrom re (i + 1) t).length
              = ((findFrom re (i + 1) t).length - 1) + 1 := by omega
          rw [this, List.get?_cons_succ]
          exact h1
        · simp only [findFrom, hx, if_false]
          exact h1
      · obtain ⟨j, hj⟩ : ∃ j, idx - i = j + 1 := ⟨idx - i - 1, by omega⟩
        have hj2 : idx - (i + 1) = j := by omega
        rw [hj2] at h4
        rw [hj, deleteLast_cons_of_mem re x t hmem, ← h4]
        simp
    · have hnil : findFrom re (i + 1) t = [] := by
        apply List.eq_nil_of_length_eq_zero
        rw [findFrom_length]; exact List.count_eq_zero_of_not_mem hmem
      by_cases hx : x = re
      · refine ⟨i, ?_, le_refl _, by simp, ?_⟩
        · simp [findFrom, hx, hnil]
        · rw [deleteLast_cons_of_not_mem re x t hmem]
          simp [hx]
      · simp [findFrom, hx, hnil] at hpos

/-- A symmetric entry (both sides the same byte) applies the spec's rule. -/
theorem washOne_symmetric (c : CharWash) (hsym : c.Char = c.Pair) (ret : Bytes) :
    washOne c ret = some (deleteLastIfOdd c.REChar ret) := by
  unfold washOne deleteLastIfOdd
  simp only [hsym, if_true]
  rw [FindAllIndex_length]
  by_cases hodd : ret.count c.REChar % 2 = 1
  · have hgt : ret.count c.REChar % 2 > 0 := by omega
    simp only [hodd, hgt, if_true]
    have hpos : 0 < (findFrom c.REChar 0 ret).length := by rw [findFrom_length]; omega
    obtain ⟨idx, h1, _, h3, h4⟩ := findFrom_last_delete c.REChar ret 0 hpos
    rw [findFrom_length] at h1 hpos
    have hcast : ((ret.count c.REChar : Int) - 1) = ((ret.count c.REChar - 1 : Nat) : Int) := by
      omega
    rw [hcast, sliceIndex?_natCast _ _ (by rw [FindAllIndex_length]; omega)]
    unfold FindAllIndex
    rw [h1]
    simp only []
    rw [deleteAt_eq ret idx (by simpa using h3)]
    simpa using h4
  · have hgt : ¬ ret.count c.REChar % 2 > 0 := by omega
    simp only [hodd, hgt, if_false]

/-- An asymmetric entry whose two sides occur equally often changes nothing. -/
theorem washOne_balanced (c : CharWash) (hasym : c.Char ≠ c.Pair) (ret : Bytes)
    (hbal : ret.count c.REChar = ret.count c.REPair) : washOne c ret = some ret := by
  unfold washOne removePlan
  simp only [hasym, if_false, FindAllIndex_length, hbal]
  simp [removeLoop]

theorem count_deleteLast_of_ne (b c : Nat) (hne : b ≠ c) (s : Bytes) :
    (deleteLast c s).count b = s.count b := by
  unfold deleteLast
  rw [List.count_reverse, List.count_erase_of_ne hne, List.count_reverse]

theorem count_deleteLastIfOdd_of_ne (b c : Nat) (hne : b ≠ c) (s : Bytes) :
    (deleteLastIfOdd c s).count b = s.count b := by
  unfold deleteLastIfOdd
  split
  · exact count_deleteLast_of_ne b c hne s
  · rfl

theorem count_deleteLastIfOdd_self (c : Nat) (s : Bytes) :
    (deleteLastIfOdd c s).count c % 2 = 0 := by
  unfold deleteLastIfOdd
  split
  · rename_i h
    unfold deleteLast
    rw [List.count_reverse, List.count_erase_self, List.count_reverse]
    omega
  · omega

theorem deleteLast_comm (a b : Nat) (s : Bytes) :
    deleteLast a (deleteLast b s) = deleteLast b (deleteLast a s) := by
  unfold deleteLast
  simp only [List.reverse_reverse]
  rw [List.erase_comm]

theorem deleteLastIfOdd_comm (a b : Nat) (hne : a ≠ b) (s : Bytes) :
    deleteLastIfOdd a (deleteLastIfOdd b s) = deleteLastIfOdd b (deleteLastIfOdd a s) := by
  have h1 := count_deleteLastIfOdd_of_ne a b hne s
  have h2 := count_deleteLastIfOdd_of_ne b a (Ne.symm hne) s
  unfold deleteLastIfOdd at h1 h2 ⊢
  by_cases ha : s.count a % 2 = 1 <;> by_cases hb : s.count b % 2 = 1 <;>
    simp only [ha, hb, if_true, if_false] at h1 h2 ⊢ <;>
    simp [h1, h2, ha, hb, deleteLast_comm]

/-- What `deleteLast` is: the byte after which `c` no longer occurs is the one
taken out, and the rest keeps its order. -/
theorem deleteLast_spec (c : Nat) :
    ∀ (s : Bytes), c ∈ s →
      ∃ pre post, s = pre ++ c :: post ∧ c ∉ post ∧ deleteLast c s = pre ++ post := by
  intro s
  induction s with
  | nil => intro h; simp at h
  | cons x t ih =>
    intro h
    by_cases hmem : c ∈ t
    · obtain ⟨pre, post, h1, h2, h3⟩ := ih hmem
      refine ⟨x :: pre, post, by simp [h1], h2, ?_⟩
      rw [deleteLast_cons_of_mem c x t hmem, h3]
      rfl
    · have hx : x = c := by
        rcases List.mem_cons.mp h with h | h
        · exact h.symm
        · exact absurd h hmem
      refine ⟨[], t, by simp [hx], hmem, ?_⟩
      rw [deleteLast_cons_of_not_mem c x t hmem]
      simp [hx]

theorem washOne_cwSingleQuote (ret : Bytes) :
    washOne cwSingleQuote ret = some (deleteLastIfOdd 39 ret) :=
  washOne_symmetric cwSingleQuote rfl ret

theorem washOne_cwDoubleQuote (ret : Bytes) :
    washOne cwDoubleQuote ret = some (deleteLastIfOdd 34 ret) :=
  washOne_symmetric cwDoubleQuote rfl ret

theorem washOne_cwParen_balanced (ret : Bytes) (h : ret.count 40 = ret.count 41) :
    washOne cwParen ret = some ret :=
  washOne_balanced cwParen (by decide) ret h

/-- With balanced parentheses every visiting order computes `dropOddQuotes`. -/
theorem washAll_balanced (order : List CharWash) (horder : order ∈ cwOrders) (s : Bytes)
    (hbal : s.count 40 = s.count 41) : washAll order s = some (dropOddQuotes s) := by
  have c1 : ∀ r : Bytes, (deleteLastIfOdd 39 r).count 40 = r.count 40 :=
    fun r => count_deleteLastIfOdd_of_ne 40 39 (by decide) r
  have c2 : ∀ r : Bytes, (deleteLastIfOdd 39 r).count 41 = r.count 41 :=
    fun r => count_deleteLastIfOdd_of_ne 41 39 (by decide) r
  have c3 : ∀ r : Bytes, (deleteLastIfOdd 34 r).count 40 = r.count 40 :=
    fun r => count_deleteLastIfOdd_of_ne 40 34 (by decide) r
  have c4 : ∀ r : Bytes, (deleteLastIfOdd 34 r).count 41 = r.count 41 :=
    fun r => count_deleteLastIfOdd_of_ne 41 34 (by decide) r
  have hcomm := deleteLastIfOdd_comm 39 34 (by decide) s
  simp only [cwOrders, List.mem_cons, List.mem_singleton, List.not_mem_nil, or_false] at horder
  unfold dropOddQuotes
  rcases horder with rfl | rfl | rfl | rfl | rfl | rfl
  · simp only [washAll, washOne_cwSingleQuote, washOne_cwDoubleQuote]
    rw [washOne_cwParen_balanced _ (by rw [c3, c4, c1, c2]; exact hbal)]
  · simp only [washAll, washOne_cwSingleQuote]
    rw [washOne_cwParen_balanced _ (by rw [c1, c2]; exact hbal)]
    simp only [washOne_cwDoubleQuote]
  · simp only [washAll, washOne_cwSingleQuote, washOne_cwDoubleQuote]
    rw [washOne_cwParen_balanced _ (by rw [c1, c2, c3, c4]; exact hbal), hcomm]
  · simp only [washAll, washOne_cwDoubleQuote]
    rw [washOne_cwParen_balanced _ (by rw [c3, c4]; exact hbal)]
    simp only [washOne_cwSingleQuote]
    rw [hcomm]
  · simp only [washAll]
    rw [washOne_cwParen_balanced _ hbal]
    simp only [washOne_cwSingleQuote, washOne_cwDoubleQuote]
  · simp only [washAll]
    rw [washOne_cwParen_balanced _ hbal]
    simp only [washOne_cwSingleQuote, washOne_cwDoubleQuote]
    rw [hcomm]

/-! ## Claims on `cleanString` -/

/-- C4: when `(` and `)` occur equally often in `s`, `cleanString` returns, for
every visiting order of the map, `s` with the last single quote deleted if
the single quote occurs an odd number of times and the last double quote
deleted if the double quote occurs an odd number of times; the result has an
even number of each quote, and `s` is returned unchanged when both counts are
already even. -/
theorem cleanString_balanced_parens (order : List CharWash) (s : Bytes)
    (horder : order.Perm cw) (hbal : s.count 40 = s.count 41) :
    cleanString order s = some (dropOddQuotes s) ∧
    (dropOddQuotes s).count 39 % 2 = 0 ∧ (dropOddQuotes s).count 34 % 2 = 0 ∧
    (dropOddQuotes s).count 40 = s.count 40 ∧ (dropOddQuotes s).count 41 = s.count 41 ∧
    (s.count 39 % 2 = 0 → s.count 34 % 2 = 0 → dropOddQuotes s = s) := by
  refine ⟨washAll_balanced order (perm_cw_mem_cwOrders order horder) s hbal, ?_, ?_, ?_, ?_, ?_⟩
  · unfold dropOddQuotes
    rw [count_deleteLastIfOdd_of_ne 39 34 (by decide)]
    exact count_deleteLastIfOdd_self 39 s
  · exact count_deleteLastIfOdd_self 34 _
  · unfold dropOddQuotes
    rw [count_deleteLastIfOdd_of_ne 40 34 (by decide), count_deleteLastIfOdd_of_ne 40 39 (by decide)]
  · unfold dropOddQuotes
    rw [count_deleteLastIfOdd_of_ne 41 34 (by decide), count_deleteLastIfOdd_of_ne 41 39 (by decide)]
  · intro h1 h2
    have e1 : deleteLastIfOdd 39 s = s := by
      unfold deleteLastIfOdd
      rw [if_neg (by omega)]
    unfold dropOddQuotes
    rw [e1]
    unfold deleteLastIfOdd
    rw [if_neg (by omega)]

/-- C4 at the spec's example: the unmatched quote of `'unbalanced` is dropped. -/
theorem cleanString_balanced_parens_witness :
    cleanString cw (39 :: goStr "unbalanced") = some (goStr "unbalanced") ∧
    dropOddQuotes (39 :: goStr "unbalanced") = goStr "unbalanced" :=
  ⟨by
    have h := cleanString_balanced_parens cw (39 :: goStr "unbalanced")
      (List.Perm.refl _) (by decide)
    rw [h.1]
    decide, by decide⟩

/-- C9: `cleanString` never panics, whatever the string and the order in which
the entries are visited (any sequence of entries, the six orders of `cw` among
them). In the parenthesis branch, when something is to be
removed, the entry `remove[len(remove)-removeNum]` exists and before each of
the `removeNum` deletions at that index the buffer is longer than the index. -/
theorem cleanString_total (order : List CharWash) (s : Bytes) :
    (∃ r, cleanString order s = some r) ∧
    (∀ ret : Bytes, 0 < (removePlan cwParen ret).2 →
      ∃ idx, sliceIndex? (removePlan cwParen ret).1
          (((removePlan cwParen ret).1.length : Int) - (removePlan cwParen ret).2) = some idx ∧
        ∀ j : Nat, (j : Int) < (removePlan cwParen ret).2 →
          ∃ buf, removeLoop (removePlan cwParen ret).1 (removePlan cwParen ret).2 j ret = some buf ∧
            idx < buf.length) := by
  refine ⟨washAll_total order s, ?_⟩
  intro ret hpos
  obtain ⟨_, hz | ⟨idx, h1, h2⟩⟩ := removePlan_spec cwParen ret
  · omega
  · refine ⟨idx, h1, ?_⟩
    intro j hj
    have hj2 : j < (removePlan cwParen ret).2.toNat := by omega
    refine ⟨_, removeLoop_eq _ _ idx h1 j ret (by omega), ?_⟩
    simp only [List.length_append, List.length_take, List.length_drop]
    omega

/-- C3 at the claim's example: for each of the six visiting orders
`cleanString "(a(b"` is `"(b"`, not the claimed `"ab"`: the two deletions are
both made at the offset of the first `(`. -/
theorem cleanString_paren_example :
    cwOrders.map (fun o => cleanString o (goStr "(a(b")) = List.replicate 6 (some (goStr "(b")) ∧
    goStr "(b" ≠ goStr "ab" ∧ (goStr "(b").count 40 ≠ (goStr "(b").count 41 := by
  decide

/-- C10 at the candidate input, the bytes `(`, single quote, `(`: visiting the
quote entries before the parenthesis entry gives the empty string, visiting the
parenthesis entry first gives `"("`. -/
theorem cleanString_order_dependent :
    cleanString [cwSingleQuote, cwDoubleQuote, cwParen] [40, 39, 40] = some [] ∧
    cleanString [cwParen, cwSingleQuote, cwDoubleQuote] [40, 39, 40] = some [40] ∧
    [cwSingleQuote, cwDoubleQuote, cwParen] ∈ cwOrders ∧
    [cwParen, cwSingleQuote, cwDoubleQuote] ∈ cwOrders := by
  decide

/-! ## What the parenthesis branch does -/

/-- The parenthesis entry with a surplus of exactly one on either side deletes
the last occurrence of that side. -/
theorem washOne_cwParen_surplus_one (ret : Bytes)
    (h : ret.count 40 = ret.count 41 + 1 ∨ ret.count 41 = ret.count 40 + 1 ∨
      ret.count 40 = ret.count 41) :
    washOne cwParen ret = some (dropSurplusParen ret) := by
  rcases h with h | h | h
  · have hplan : removePlan cwParen ret = (FindAllIndex 40 ret, 1) := by
      unfold removePlan
      simp only [cwParen, FindAllIndex_length, h]
      simp
    have hpos : 0 < (findFrom 40 0 ret).length := by rw [findFrom_length]; omega
    obtain ⟨idx, h1, _, h3, h4⟩ := findFrom_last_delete 40 ret 0 hpos
    have hidx : sliceIndex? (FindAllIndex 40 ret) (((FindAllIndex 40 ret).length : Int) - 1)
        = some idx := by
      have hcast : (((FindAllIndex 40 ret).length : Int) - 1)
          = (((FindAllIndex 40 ret).length - 1 : Nat) : Int) := by
        unfold FindAllIndex; omega
      rw [hcast, sliceIndex?_natCast _ _ (by unfold FindAllIndex; omega)]
      exact h1
    have hrun := removeLoop_eq (FindAllIndex 40 ret) 1 idx hidx 1 ret (by simpa using h3)
    have hw : washOne cwParen ret = some (ret.take idx ++ ret.drop (idx + 1)) := by
      unfold washOne
      rw [if_neg (by decide)]
      simp only [hplan]
      exact hrun
    rw [hw]
    unfold dropSurplusParen
    rw [if_pos h]
    simpa using h4
  · have hplan : removePlan cwParen ret = (FindAllIndex 41 ret, 1) := by
      unfold removePlan
      simp only [cwParen, FindAllIndex_length, h]
      have e1 : ((ret.count 40 : Int) - ((ret.count 40 + 1 : Nat) : Int)) = -1 := by omega
      simp [e1]
    have hpos : 0 < (findFrom 41 0 ret).length := by rw [findFrom_length]; omega
    obtain ⟨idx, h1, _, h3, h4⟩ := findFrom_last_delete 41 ret 0 hpos
    have hidx : sliceIndex? (FindAllIndex 41 ret) (((FindAllIndex 41 ret).length : Int) - 1)
        = some idx := by
      have hcast : (((FindAllIndex 41 ret).length : Int) - 1)
          = (((FindAllIndex 41 ret).length - 1 : Nat) : Int) := by
        unfold FindAllIndex; omega
      rw [hcast, sliceIndex?_natCast _ _ (by unfold FindAllIndex; omega)]
      exact h1
    have hrun := removeLoop_eq (FindAllIndex 41 ret) 1 idx hidx 1 ret (by simpa using h3)
    have hw : washOne cwParen ret = some (ret.take idx ++ ret.drop (idx + 1)) := by
      unfold washOne
      rw [if_neg (by decide)]
      simp only [hplan]
      exact hrun
    rw [hw]
    unfold dropSurplusParen
    rw [if_neg (by omega), if_pos h]
    simpa using h4
  · rw [washOne_cwParen_balanced ret h]
    unfold dropSurplusParen
    rw [if_neg (by omega), if_neg (by omega)]

theorem dropSurplusParen_deleteLastIfOdd (q : Nat) (h40 : (40 : Nat) ≠ q) (h41 : (41 : Nat) ≠ q)
    (s : Bytes) :
    dropSurplusParen (deleteLastIfOdd q s) = deleteLastIfOdd q (dropSurplusParen s) := by
  have c40 := count_deleteLastIfOdd_of_ne 40 q h40 s
  have c41 := count_deleteLastIfOdd_of_ne 41 q h41 s
  have d40 := count_deleteLast_of_ne q 40 (Ne.symm h40) s
  have d41 := count_deleteLast_of_ne q 41 (Ne.symm h41) s
  unfold dropSurplusParen
  rw [c40, c41]
  by_cases ha : s.count 40 = s.count 41 + 1
  · rw [if_pos ha, if_pos ha]
    unfold deleteLastIfOdd
    rw [d40]
    by_cases hq : s.count q % 2 = 1
    · rw [if_pos hq, if_pos hq]
      exact deleteLast_comm 40 q s
    · rw [if_neg hq, if_neg hq]
  · rw [if_neg ha, if_neg ha]
    by_cases hb : s.count 41 = s.count 40 + 1
    · rw [if_pos hb, if_pos hb]
      unfold deleteLastIfOdd
      rw [d41]
      by_cases hq : s.count q % 2 = 1
      · rw [if_pos hq, if_pos hq]
        exact deleteLast_comm 41 q s
      · rw [if_neg hq, if_neg hq]
    · rw [if_neg hb, if_neg hb]

/-- When the two parentheses differ in number by at most one, every visiting
order of the map gives the same result: the surplus parenthesis, if any, and
the odd quotes are dropped, each at its last occurrence. -/
theorem cleanString_surplus_at_most_one (order : List CharWash) (s : Bytes)
    (horder : order.Perm cw)
    (h : s.count 40 = s.count 41 + 1 ∨ s.count 41 = s.count 40 + 1 ∨ s.count 40 = s.count 41) :
    cleanString order s = some (dropOddQuotes (dropSurplusParen s)) := by
  have c1 : ∀ r : Bytes, (deleteLastIfOdd 39 r).count 40 = r.count 40 :=
    fun r => count_deleteLastIfOdd_of_ne 40 39 (by decide) r
  have c2 : ∀ r : Bytes, (deleteLastIfOdd 39 r).count 41 = r.count 41 :=
    fun r => count_deleteLastIfOdd_of_ne 41 39 (by decide) r
  have c3 : ∀ r : Bytes, (deleteLastIfOdd 34 r).count 40 = r.count 40 :=
    fun r => count_deleteLastIfOdd_of_ne 40 34 (by decide) r
  have c4 : ∀ r : Bytes, (deleteLastIfOdd 34 r).count 41 = r.count 41 :=
    fun r => count_deleteLastIfOdd_of_ne 41 34 (by decide) r
  have p39 := dropSurplusParen_deleteLastIfOdd 39 (by decide) (by decide)
  have p34 := dropSurplusParen_deleteLastIfOdd 34 (by decide) (by decide)
  have hcomm : ∀ r : Bytes, deleteLastIfOdd 39 (deleteLastIfOdd 34 r)
      = deleteLastIfOdd 34 (deleteLastIfOdd 39 r) :=
    fun r => deleteLastIfOdd_comm 39 34 (by decide) r
  have horder := perm_cw_mem_cwOrders order horder
  simp only [cwOrders, List.mem_cons, List.mem_singleton, List.not_mem_nil, or_false] at horder
  unfold cleanString dropOddQuotes
  rcases horder with rfl | rfl | rfl | rfl | rfl | rfl
  · simp only [washAll, washOne_cwSingleQuote, washOne_cwDoubleQuote]
    rw [washOne_cwParen_surplus_one _ (by rw [c3, c4, c1, c2]; exact h), p34, p39]
  · simp only [washAll, washOne_cwSingleQuote]
    rw [washOne_cwParen_surplus_one _ (by rw [c1, c2]; exact h)]
    simp only [washOne_cwDoubleQuote]
    rw [p39]
  · simp only [washAll, washOne_cwSingleQuote, washOne_cwDoubleQuote]
    rw [washOne_cwParen_surplus_one _ (by rw [c1, c2, c3, c4]; exact h), p39, p34, hcomm]
  · simp only [washAll, washOne_cwDoubleQuote]
    rw [washOne_cwParen_surplus_one _ (by rw [c3, c4]; exact h)]
    simp only [washOne_cwSingleQuote]
    rw [p34, hcomm]
  · simp only [washAll]
    rw [washOne_cwParen_surplus_one _ h]
    simp only [washOne_cwSingleQuote, washOne_cwDoubleQuote]
  · simp only [washAll]
    rw [washOne_cwParen_surplus_one _ h]
    simp only [washOne_cwSingleQuote, washOne_cwDoubleQuote]
    rw [hcomm]

/-- The surplus closing parenthesis of `a(b)c)` is dropped at its last
occurrence. -/
theorem cleanString_surplus_at_most_one_witness :
    cleanString cw (goStr "a(b)c)") = some (goStr "a(b)c") :=
  (cleanString_surplus_at_most_one cw (goStr "a(b)c)") (List.Perm.refl _) (by decide)).trans
    (by decide)

/-- When the parenthesis entry has something to remove, it takes out the
`removeNum` consecutive bytes that start at the offset
`remove[len(remove)-removeNum]`, whatever bytes they are. -/
theorem washOne_cwParen_block (ret : Bytes) (hpos : 0 < (removePlan cwParen ret).2) :
    ∃ idx, sliceIndex? (removePlan cwParen ret).1
        (((removePlan cwParen ret).1.length : Int) - (removePlan cwParen ret).2) = some idx ∧
      washOne cwParen ret
        = some (ret.take idx ++ ret.drop (idx + (removePlan cwParen ret).2.toNat)) := by
  obtain ⟨_, hz | ⟨idx, h1, h2⟩⟩ := removePlan_spec cwParen ret
  · omega
  · refine ⟨idx, h1, ?_⟩
    unfold washOne
    rw [if_neg (by decide)]
    exact removeLoop_eq _ _ idx h1 _ ret h2

/-- The block taken out of `x(a(b`: two bytes from offset 1, `(` and `a`. -/
theorem washOne_cwParen_block_witness :
    ∃ idx, sliceIndex? (removePlan cwParen (goStr "x(a(b")).1
        (((removePlan cwParen (goStr "x(a(b")).1.length : Int)
          - (removePlan cwParen (goStr "x(a(b")).2) = some idx ∧
      washOne cwParen (goStr "x(a(b")
        = some ((goStr "x(a(b").take idx
            ++ (goStr "x(a(b").drop (idx + (removePlan cwParen (goStr "x(a(b")).2.toNat)) :=
  washOne_cwParen_block (goStr "x(a(b") (by decide)

/-! ## The trimming loops have fuel enough -/

theorem leadingSpaceLen_le (s : Bytes) : leadingSpaceLen s ≤ s.length := by
  unfold leadingSpaceLen
  cases hf : (unicodeSpaces.map utf8EncodeRune).find? (fun w => w.isPrefixOf s) with
  | none => simp
  | some w =>
    have hp := List.find?_some hf
    simp only [List.isPrefixOf_iff_prefix] at hp
    exact hp.length_le

theorem trimLeftSpaceN_done : ∀ (n : Nat) (s : Bytes), s.length ≤ n →
    leadingSpaceLen (trimLeftSpaceN n s) = 0 := by
  intro n
  induction n with
  | zero =>
    intro s hs
    have := leadingSpaceLen_le s
    simp only [trimLeftSpaceN]
    omega
  | succ n ih =>
    intro s hs
    simp only [trimLeftSpaceN]
    cases hk : leadingSpaceLen s with
    | zero => simpa using hk
    | succ k =>
      simp only []
      apply ih
      have := leadingSpaceLen_le s
      simp only [List.length_drop]
      omega

theorem trailingSpaceLen_le (s : Bytes) : trailingSpaceLen s ≤ s.length := by
  unfold trailingSpaceLen
  cases hf : (unicodeSpaces.map utf8EncodeRune).find?
      (fun w => w.reverse.isPrefixOf s.reverse) with
  | none => simp
  | some w =>
    have hp := List.find?_some hf
    simp only [List.isPrefixOf_iff_prefix] at hp
    simpa using hp.length_le

theorem trimRightSpaceN_done : ∀ (n : Nat) (s : Bytes), s.length ≤ n →
    trailingSpaceLen (trimRightSpaceN n s) = 0 := by
  intro n
  induction n with
  | zero =>
    intro s hs
    have := trailingSpaceLen_le s
    simp only [trimRightSpaceN]
    omega
  | succ n ih =>
    intro s hs
    simp only [trimRightSpaceN]
    cases hk : trailingSpaceLen s with
    | zero => simpa using hk
    | succ k =>
      simp only []
      apply ih
      have := trailingSpaceLen_le s
      simp only [List.length_take]
      omega

/-- The result of `TrimSpace` ends with no white-space rune, and the string it
trims on the right starts with none. -/
theorem TrimSpace_trimmed (s : Bytes) :
    trailingSpaceLen (TrimSpace s) = 0 ∧ leadingSpaceLen (trimLeftSpaceN s.length s) = 0 :=
  ⟨trimRightSpaceN_done _ _ (le_refl _), trimLeftSpaceN_done _ _ (le_refl _)⟩

/-! ## Claims on `parse` -/

theorem take_indexOf_eq_takeWhile (m : Bytes) :
    m.take (m.indexOf 32) = spaceToken m := by
  unfold spaceToken
  induction m with
  | nil => simp
  | cons x t ih =>
    by_cases hx : x = 32
    · subst hx; simp [List.indexOf_cons]
    · rw [List.indexOf_cons_ne _ hx, List.take_succ_cons, ih, List.takeWhile_cons]
      simp [hx]

/-- The two shapes `strings.SplitN(m, " ", 2)` returns. -/
theorem SplitNSpace2_cases (m : Bytes) :
    SplitNSpace2 m = [spaceToken m] ∨
      ∃ rest, SplitNSpace2 m = [spaceToken m, rest] := by
  unfold SplitNSpace2
  simp only []
  by_cases h : m.indexOf 32 < m.length
  · rw [if_pos h, take_indexOf_eq_takeWhile]
    exact Or.inr ⟨_, rfl⟩
  · rw [if_neg h]
    left
    have hall : m.take (m.indexOf 32) = m := List.take_of_length_le (by omega)
    rw [← take_indexOf_eq_takeWhile, hall]

theorem spaceToken_no_space (m : Bytes) : 32 ∉ spaceToken m := by
  unfold spaceToken
  intro h
  have := List.mem_takeWhile_imp h
  simp at this

/-- What `parse` returns, branch by branch. -/
theorem parse_cases (lib : Libs) (order : List CharWash) (s : Bytes) (channel : ChannelData)
    (user : Option User) :
    (HasPrefix (TrimSpace s) CmdPrefix = false ∧
      parse lib order s channel user = some (none, none)) ∨
    (HasPrefix (TrimSpace s) CmdPrefix = true ∧
      TrimSpace (TrimPrefix (TrimSpace s) CmdPrefix) = [] ∧
      parse lib order s channel user = some (none, none)) ∨
    (HasPrefix (TrimSpace s) CmdPrefix = true ∧
      TrimSpace (TrimPrefix (TrimSpace s) CmdPrefix) ≠ [] ∧
      ((∃ e, parse lib order s channel user = some (none, some e)) ∨
       (∃ c : Cmd, parse lib order s channel user = some (some c, none) ∧
          c.Message = TrimSpace (TrimPrefix (TrimSpace s) CmdPrefix) ∧
          c.Command = ToLower lib (lib.Unidecode (spaceToken c.Message))))) := by
  unfold parse
  simp only []
  by_cases hp : HasPrefix (TrimSpace s) CmdPrefix = true
  · right
    by_cases hm : TrimSpace (TrimPrefix (TrimSpace s) CmdPrefix) = []
    · left
      simp [hp, hm]
    · right
      refine ⟨hp, hm, ?_⟩
      simp only [hp, hm, Bool.not_true, Bool.false_eq_true, if_false]
      rcases SplitNSpace2_cases (TrimSpace (TrimPrefix (TrimSpace s) CmdPrefix)) with h1 | ⟨rest, h2⟩
      · right
        simp [h1]
      · simp only [h2, List.get?_cons_zero, List.length_cons, List.length_nil,
          List.get?_cons_succ]
        obtain ⟨cleaned, hc⟩ := washAll_total order (TrimSpace rest)
        unfold cleanString
        simp only [hc]
        cases hsw : lib.shellwordsParse (lib.Unidecode cleaned) with
        | error err => left; simp
        | ok parsedArgs => right; simp
  · left
    have hp2 : HasPrefix (TrimSpace s) CmdPrefix = false := by simpa using hp
    simp [hp2]

/-- C1: `parse` returns, and it returns a nil command with a nil error exactly
when the trimmed text does not start with the prefix `!` or nothing is left
once the prefix is removed and the rest trimmed; otherwise it returns a command
with a nil error or no command with an error. -/
theorem parse_nil_nil_iff (lib : Libs) (order : List CharWash) (s : Bytes)
    (channel : ChannelData) (user : Option User) :
    ∃ r, parse lib order s channel user = some r ∧
      (r = (none, none) ↔
        (HasPrefix (TrimSpace s) CmdPrefix = false ∨
          TrimSpace (TrimPrefix (TrimSpace s) CmdPrefix) = [])) ∧
      (r ≠ (none, none) → (∃ c, r = (some c, none)) ∨ (∃ e, r = (none, some e))) := by
  rcases parse_cases lib order s channel user with ⟨h1, h2⟩ | ⟨h1, h2, h3⟩ | ⟨h1, h2, h3⟩
  · exact ⟨_, h2, ⟨fun _ => Or.inl h1, fun _ => rfl⟩, fun h => absurd rfl h⟩
  · exact ⟨_, h3, ⟨fun _ => Or.inr h2, fun _ => rfl⟩, fun h => absurd rfl h⟩
  · rcases h3 with ⟨e, he⟩ | ⟨c, hc, _⟩
    · refine ⟨_, he, ⟨fun h => ?_, fun h => ?_⟩, fun _ => Or.inr ⟨e, rfl⟩⟩
      · simp at h
      · rcases h with h | h
        · rw [h1] at h; simp at h
        · exact absurd h h2
    · refine ⟨_, hc, ⟨fun h => ?_, fun h => ?_⟩, fun _ => Or.inl ⟨c, rfl⟩⟩
      · simp at h
      · rcases h with h | h
        · rw [h1] at h; simp at h
        · exact absurd h h2

/-- C1 at the spec's examples `hello`, `!` and `!` followed by blanks: none is
a command. -/
theorem parse_nil_nil_witness :
    parse asciiLibs cw (goStr "hello") exampleChannel none = some (none, none) ∧
    parse asciiLibs cw (goStr "!") exampleChannel none = some (none, none) ∧
    parse asciiLibs cw (goStr "!   ") exampleChannel none = some (none, none) := by
  refine ⟨?_, ?_, ?_⟩
  · obtain ⟨r, h1, h2, _⟩ := parse_nil_nil_iff asciiLibs cw (goStr "hello") exampleChannel none
    rw [h1, h2.mpr (Or.inl (by decide))]
  · obtain ⟨r, h1, h2, _⟩ := parse_nil_nil_iff asciiLibs cw (goStr "!") exampleChannel none
    rw [h1, h2.mpr (Or.inr (by decide))]
  · obtain ⟨r, h1, h2, _⟩ := parse_nil_nil_iff asciiLibs cw (goStr "!   ") exampleChannel none
    rw [h1, h2.mpr (Or.inr (by decide))]

theorem spaceEncodings_ne_nil : ∀ w ∈ unicodeSpaces.map utf8EncodeRune, w ≠ [] := by
  decide

/-- A string that starts with a space byte starts with a white-space rune. -/
theorem leadingSpaceLen_space (xs : Bytes) : leadingSpaceLen (32 :: xs) ≠ 0 := by
  unfold leadingSpaceLen
  cases hf : (unicodeSpaces.map utf8EncodeRune).find? (fun w => w.isPrefixOf (32 :: xs)) with
  | none =>
    have hall := List.find?_eq_none.mp hf [32] (by decide)
    simp [List.isPrefixOf] at hall
  | some w =>
    have hmem := List.mem_of_find?_eq_some hf
    have hne := spaceEncodings_ne_nil w hmem
    simp only []
    intro h0
    exact hne (List.eq_nil_of_length_eq_zero h0)

/-- Trimming on the right keeps a prefix. -/
theorem trimRightSpaceN_take : ∀ (n : Nat) (s : Bytes), ∃ k, trimRightSpaceN n s = s.take k := by
  intro n
  induction n with
  | zero => intro s; exact ⟨s.length, by simp [trimRightSpaceN]⟩
  | succ n ih =>
    intro s
    simp only [trimRightSpaceN]
    cases hk : trailingSpaceLen s with
    | zero => exact ⟨s.length, by simp⟩
    | succ k =>
      simp only []
      obtain ⟨j, hj⟩ := ih (s.take (s.length - (k + 1)))
      exact ⟨min j (s.length - (k + 1)), by rw [hj, List.take_take]⟩

/-- The result of `TrimSpace` does not start with a space byte. -/
theorem TrimSpace_head_ne_space (s : Bytes) (x : Nat) (r : Bytes)
    (h : TrimSpace s = x :: r) : x ≠ 32 := by
  unfold TrimSpace at h
  simp only [] at h
  obtain ⟨k, hk⟩ := trimRightSpaceN_take (trimLeftSpaceN s.length s).length
    (trimLeftSpaceN s.length s)
  have hlead := trimLeftSpaceN_done s.length s (le_refl _)
  rw [hk] at h
  intro hx
  subst hx
  cases ht : trimLeftSpaceN s.length s with
  | nil => rw [ht] at h; simp at h
  | cons y t =>
    rw [ht] at h hlead
    cases k with
    | zero => simp at h
    | succ k =>
      simp only [List.take_succ_cons, List.cons.injEq] at h
      rw [h.1] at hlead
      exact leadingSpaceLen_space t hlead

theorem spaceToken_ne_nil (m : Bytes) (x : Nat) (r : Bytes) (hm : m = x :: r) (hx : x ≠ 32) :
    spaceToken m ≠ [] := by
  subst hm
  unfold spaceToken
  simp [List.takeWhile_cons, hx]

/-- C2, amended: for every text `parse` accepts as a command, `Command` is the
lowercased transliteration of the part of the prefix-stripped, trimmed message
that stands before its first space byte (the whole message when it has no
space). That part is not empty, holds no space byte, and is followed by a
space byte or by the end of the message: a tab or a newline does not end it. -/
theorem parse_command_token (lib : Libs) (order : List CharWash) (s : Bytes)
    (channel : ChannelData) (user : Option User) (cmd : Cmd)
    (h : parse lib order s channel user = some (some cmd, none)) :
    cmd.Message = TrimSpace (TrimPrefix (TrimSpace s) CmdPrefix) ∧
    cmd.Command = ToLower lib (lib.Unidecode (spaceToken cmd.Message)) ∧
    spaceToken cmd.Message ≠ [] ∧
    32 ∉ spaceToken cmd.Message ∧
    (∃ rest, cmd.Message = spaceToken cmd.Message ++ rest ∧ (rest = [] ∨ rest.head? = some 32)) := by
  have htok : ∀ m : Bytes, ∃ rest, m = spaceToken m ++ rest ∧ (rest = [] ∨ rest.head? = some 32) := by
    intro m
    refine ⟨m.dropWhile (fun b => b ≠ 32), by unfold spaceToken; simp, ?_⟩
    induction m with
    | nil => exact Or.inl rfl
    | cons x t ih =>
      by_cases hx : x = 32
      · right; simp [List.dropWhile_cons, hx]
      · simpa [List.dropWhile_cons, hx] using ih
  rcases parse_cases lib order s channel user with ⟨_, h2⟩ | ⟨_, _, h3⟩ | ⟨_, hne, h3⟩
  · rw [h2] at h; simp at h
  · rw [h3] at h; simp at h
  · rcases h3 with ⟨e, he⟩ | ⟨c, hc, hmsg, hcmd⟩
    · rw [he] at h; simp at h
    · rw [hc] at h
      have hcc : c = cmd := by simpa using h
      subst hcc
      have hnonempty : spaceToken c.Message ≠ [] := by
        cases hm : c.Message with
        | nil => rw [hmsg] at hm; exact absurd hm hne
        | cons x r =>
          rw [← hm]
          exact spaceToken_ne_nil c.Message x r hm
            (TrimSpace_head_ne_space _ x r (by rw [← hmsg]; exact hm))
      exact ⟨hmsg, hcmd, hnonempty, spaceToken_no_space _, htok _⟩

/-- C2 at the spec's example: `!Echo hello world` gives the command `echo`. -/
theorem parse_command_token_witness :
    parse asciiLibs cw (goStr "!Echo hello world") exampleChannel none
      = some (some exampleEchoCmd, none) ∧
    ToLower asciiLibs (asciiLibs.Unidecode (spaceToken exampleEchoCmd.Message)) = goStr "echo" :=
  ⟨by decide, by
    have h := (parse_command_token asciiLibs cw (goStr "!Echo hello world") exampleChannel none
      exampleEchoCmd (by decide)).2.1
    rw [← h]
    decide⟩

/-- C2 as stated fails at `!Echo`, tab, `hello`: the command is the whole
`echo`, tab, `hello`, with the tab in it, not the first white-space-separated
token `echo`. -/
theorem parse_command_tab_counterexample :
    ∃ cmd, parse asciiLibs cw (goStr "!Echo" ++ 9 :: goStr "hello") exampleChannel none
        = some (some cmd, none) ∧
      cmd.Command = goStr "echo" ++ 9 :: goStr "hello" ∧
      ToLower asciiLibs (asciiLibs.Unidecode (whitespaceToken cmd.Message)) = goStr "echo" ∧
      cmd.Command ≠ ToLower asciiLibs (asciiLibs.Unidecode (whitespaceToken cmd.Message)) ∧
      9 ∈ cmd.Command := by
  refine ⟨_, rfl, ?_, ?_, ?_, ?_⟩ <;> decide

/-! ## Claims on bot.go -/

theorem SendMessage_room (env : Dispatch) (b : Bot) (c : SendCall)
    (hne : (c.response env).message ≠ []) (hroom : b.msgsToSend.length < MsgBuffer) :
    SendMessage env b c.target c.cd c.message c.sender
      = ({ b with msgsToSend := b.msgsToSend ++ [c.response env] }, []) := by
  unfold SendMessage
  simp only [SendCall.response] at hne ⊢
  rw [if_neg hne, if_pos hroom]

theorem SendMessage_full (env : Dispatch) (b : Bot) (c : SendCall) (h : ErrorHandler)
    (herr : b.handlers.Errored = some h)
    (hne : (c.response env).message ≠ []) (hfull : ¬ b.msgsToSend.length < MsgBuffer) :
    SendMessage env b c.target c.cd c.message c.sender
      = (b, [Event.erroredCall h (goStr "Failed to queue message to send.")
          (goStr "Too busy")]) := by
  unfold SendMessage
  simp only [SendCall.response] at hne ⊢
  rw [if_neg hne, if_neg hfull]
  simp [errored, herr]

/-- A run of sends fills what room the queue has, in call order, and reports
every later send to the error callback. -/
theorem sendAll_spec (env : Dispatch) (h : ErrorHandler) :
    ∀ (calls : List SendCall) (b : Bot), b.handlers.Errored = some h →
      b.msgsToSend.length ≤ MsgBuffer →
      (∀ c ∈ calls, (c.response env).message ≠ []) →
      (sendAll env b calls).1 = { b with msgsToSend := b.msgsToSend ++
          (calls.take (MsgBuffer - b.msgsToSend.length)).map (SendCall.response env) } ∧
      (sendAll env b calls).2 = List.replicate (calls.length - (MsgBuffer - b.msgsToSend.length))
          (Event.erroredCall h (goStr "Failed to queue message to send.") (goStr "Too busy")) := by
  intro calls
  induction calls with
  | nil => intro b _ _ _; simp [sendAll]
  | cons c rest ih =>
    intro b herr hlen hne
    have hc := hne c (List.mem_cons_self _ _)
    have hrest : ∀ c ∈ rest, (c.response env).message ≠ [] :=
      fun x hx => hne x (List.mem_cons_of_mem _ hx)
    by_cases hroom : b.msgsToSend.length < MsgBuffer
    · have hstep := SendMessage_room env b c hc hroom
      obtain ⟨k, hk⟩ : ∃ k, MsgBuffer - b.msgsToSend.length = k + 1 :=
        ⟨MsgBuffer - b.msgsToSend.length - 1, by omega⟩
      have ih1 := ih { b with msgsToSend := b.msgsToSend ++ [c.response env] } herr
        (by simp only [List.length_append, List.length_singleton]; omega) hrest
      have hk1 : MsgBuffer - (b.msgsToSend ++ [c.response env]).length = k := by
        simp only [List.length_append, List.length_singleton]; omega
      simp only [hk1] at ih1
      simp only [sendAll, hstep, hk, List.take_succ_cons, List.map_cons, List.length_cons,
        List.nil_append, ih1.1, ih1.2]
      refine ⟨by simp, ?_⟩
      congr 1
      omega
    · have hstep := SendMessage_full env b c h herr hc hroom
      have hz : MsgBuffer - b.msgsToSend.length = 0 := by omega
      have ih1 := ih b herr hlen hrest
      simp only [hz] at ih1
      simp only [sendAll, hstep, hz, ih1.1, ih1.2, List.take_zero, List.map_nil,
        List.length_cons, Nat.sub_zero]
      exact ⟨trivial, rfl⟩

/-- C5: on an empty queue, with no delivery in between, a sequence of
`SendMessage` calls whose filtered messages are not empty enqueues exactly its
first `min n 100` responses, in call order; after every call the queue holds
at most 100 responses; and every call after the first 100 leaves the bot
unchanged and calls the error callback exactly once. -/
theorem SendMessage_queue_capacity (env : Dispatch) (b : Bot) (calls : List SendCall)
    (h : ErrorHandler) (hempty : b.msgsToSend = []) (herr : b.handlers.Errored = some h)
    (hne : ∀ c ∈ calls, (c.response env).message ≠ []) :
    (sendAll env b calls).1.msgsToSend = (calls.take MsgBuffer).map (SendCall.response env) ∧
    (sendAll env b calls).1.msgsToSend.length = min calls.length MsgBuffer ∧
    (sendAll env b calls).2 = List.replicate (calls.length - MsgBuffer)
      (Event.erroredCall h (goStr "Failed to queue message to send.") (goStr "Too busy")) ∧
    (∀ k, (sendAll env b (calls.take k)).1.msgsToSend
        = ((calls.take k).take MsgBuffer).map (SendCall.response env) ∧
      (sendAll env b (calls.take k)).1.msgsToSend.length ≤ MsgBuffer) ∧
    (∀ k c, MsgBuffer ≤ k → calls.get? k = some c →
      SendMessage env (sendAll env b (calls.take k)).1 c.target c.cd c.message c.sender
        = ((sendAll env b (calls.take k)).1,
           [Event.erroredCall h (goStr "Failed to queue message to send.") (goStr "Too busy")])) := by
  have key : ∀ l : List SendCall, (∀ c ∈ l, (c.response env).message ≠ []) →
      (sendAll env b l).1 = { b with msgsToSend := (l.take MsgBuffer).map (SendCall.response env) } ∧
      (sendAll env b l).2 = List.replicate (l.length - MsgBuffer)
        (Event.erroredCall h (goStr "Failed to queue message to send.") (goStr "Too busy")) := by
    intro l hl
    have := sendAll_spec env h l b herr (by rw [hempty]; simp) hl
    simpa [hempty] using this
  have hk := key calls hne
  have hpre : ∀ k, ∀ c ∈ calls.take k, (c.response env).message ≠ [] :=
    fun k c hc => hne c (List.mem_of_mem_take hc)
  refine ⟨by rw [hk.1], ?_, hk.2, ?_, ?_⟩
  · rw [hk.1]
    simp [MsgBuffer, Nat.min_comm]
  · intro k
    rw [(key _ (hpre k)).1]
    refine ⟨rfl, ?_⟩
    simp only [List.length_map, List.length_take, MsgBuffer]
    omega
  · intro k c hk100 hget
    have hlt : k < calls.length := by
      rcases Nat.lt_or_ge k calls.length with hlt | hge
      · exact hlt
      · rw [List.get?_eq_none.mpr hge] at hget
        exact absurd hget (by simp)
    have hmem : c ∈ calls := List.get?_mem hget
    have hb := (key _ (hpre k)).1
    apply SendMessage_full env _ c h
    · rw [hb]; exact herr
    · exact hne c hmem
    · rw [hb]
      simp only [List.length_map, List.length_take]
      omega

/-- C5 on a fresh bot and 103 sends: 100 responses are queued and the error
callback is called three times. -/
theorem SendMessage_queue_capacity_witness :
    (sendAll exampleDispatch (New ⟨none, none⟩ ⟨goStr "irc", goStr "irc.example.org"⟩)
        exampleCalls).1.msgsToSend.length = 100 ∧
    (sendAll exampleDispatch (New ⟨none, none⟩ ⟨goStr "irc", goStr "irc.example.org"⟩)
        exampleCalls).2.length = 3 := by
  have h := SendMessage_queue_capacity exampleDispatch
    (New ⟨none, none⟩ ⟨goStr "irc", goStr "irc.example.org"⟩) exampleCalls
    ErrorHandler.logErrorHandler rfl rfl (by
      intro c hc
      rw [List.eq_of_mem_replicate hc]
      decide)
  refine ⟨?_, ?_⟩
  · rw [h.2.1]; simp [exampleCalls, MsgBuffer]
  · rw [h.2.2.1]; simp [exampleCalls, MsgBuffer]

theorem TrimSpace_nil : TrimSpace [] = [] := by decide

/-- C6, amended: `MessageReceived` tests the disabled set on the command's name
as the inbound filters leave it. When the message parses to a command whose
name after the inbound filters is in the disabled set, it only runs the
inbound filters: it calls neither `handleCmd` nor `help` and sends nothing,
whatever the name, the reserved help token included; this is the parsed name
when the filters leave the name as it is. And in every run neither
`handleCmd` nor `help` is called with a command whose name is in the disabled
set. -/
theorem MessageReceived_disabled (lib : Libs) (order : List CharWash) (env : Dispatch)
    (b : Bot) (channel : ChannelData) (message : Message) (sender : Option User) :
    (∀ cmd, parse lib order message.Text channel sender = some (some cmd, none) →
      (env.filteredCmd message cmd).Command ∈ b.disabledCmds →
      ∃ calls, MessageReceived lib order env b channel message sender = some calls ∧
        calls = [Call.executeMessageReceiveFilters message (some cmd)] ∧
        ∀ c ∈ calls, c.isReply = false) ∧
    (∀ cmd, parse lib order message.Text channel sender = some (some cmd, none) →
      (env.filteredCmd message cmd).Command = cmd.Command →
      cmd.Command ∈ b.disabledCmds →
      MessageReceived lib order env b channel message sender
        = some [Call.executeMessageReceiveFilters message (some cmd)]) ∧
    (∀ calls, MessageReceived lib order env b channel message sender = some calls →
      ∀ x, (Call.handleCmd x ∈ calls ∨ Call.help x ∈ calls) →
        x.Command ∉ b.disabledCmds) := by
  have hmain : ∀ cmd, parse lib order message.Text channel sender = some (some cmd, none) →
      (env.filteredCmd message cmd).Command ∈ b.disabledCmds →
      MessageReceived lib order env b channel message sender
        = some [Call.executeMessageReceiveFilters message (some cmd)] := by
    intro cmd hparse hdis
    have htext : message.Text ≠ [] := by
      intro hnil
      rcases parse_cases lib order message.Text channel sender with
        ⟨_, h2⟩ | ⟨_, _, h3⟩ | ⟨h1, _, _⟩
      · rw [h2] at hparse; simp at hparse
      · rw [h3] at hparse; simp at hparse
      · rw [hnil, TrimSpace_nil] at h1
        exact absurd h1 (by decide)
    unfold MessageReceived
    simp only [hparse, htext, ne_eq, not_false_eq_true, decide_True, Bool.or_true, if_true,
      Option.map_some', isDisabled, hdis]
  refine ⟨?_, ?_, ?_⟩
  · intro cmd hparse hdis
    refine ⟨_, hmain cmd hparse hdis, rfl, ?_⟩
    intro c hc
    simp only [List.mem_singleton] at hc
    subst hc
    rfl
  · intro cmd hparse hkeep hdis
    exact hmain cmd hparse (by rw [hkeep]; exact hdis)
  · intro calls hcalls x hx
    unfold MessageReceived at hcalls
    cases hp : parse lib order message.Text channel sender with
    | none => rw [hp] at hcalls; simp at hcalls
    | some r =>
      obtain ⟨command, err⟩ := r
      rw [hp] at hcalls
      cases err with
      | some e =>
        simp only [Option.some.injEq] at hcalls
        subst hcalls
        simp at hx
      | none =>
        simp only [] at hcalls
        split at hcalls
        · simp only [Option.some.injEq] at hcalls
          subst hcalls
          split_ifs at hx <;> simp at hx
        · rename_i c hc1
          by_cases hd : isDisabled b c.Command = true
          · rw [if_pos hd] at hcalls
            simp only [Option.some.injEq] at hcalls
            subst hcalls
            split_ifs at hx <;> simp at hx
          · rw [if_neg hd] at hcalls
            have hnot : c.Command ∉ b.disabledCmds := by
              simpa [isDisabled] using hd
            by_cases hh : c.Command = env.helpCommand
            · rw [if_pos hh] at hcalls
              simp only [Option.some.injEq] at hcalls
              subst hcalls
              have hxc : x = c := by
                split_ifs at hx <;> simp at hx <;> exact hx
              rw [hxc]; exact hnot
            · rw [if_neg hh] at hcalls
              simp only [Option.some.injEq] at hcalls
              subst hcalls
              have hxc : x = c := by
                split_ifs at hx <;> simp at hx <;> exact hx
              rw [hxc]; exact hnot

/-- C6 at `!help` with the help token disabled and filters that only observe:
only the inbound filters run. -/
theorem MessageReceived_disabled_witness :
    MessageReceived asciiLibs cw exampleDispatch exampleBot exampleChannel ⟨goStr "!help"⟩ none
      = some [Call.executeMessageReceiveFilters ⟨goStr "!help"⟩ (some exampleHelpCmd)] ∧
    exampleHelpCmd.Command = exampleDispatch.helpCommand :=
  ⟨(MessageReceived_disabled asciiLibs cw exampleDispatch exampleBot exampleChannel
      ⟨goStr "!help"⟩ none).2.1 exampleHelpCmd (by decide) rfl (by decide), by decide⟩

/-- C6 as stated fails when an inbound filter renames the command: `!help`
parses to the disabled name `help`, the filter leaves the name `ping` in the
command, and `handleCmd` is called. -/
theorem MessageReceived_renamed_counterexample :
    parse asciiLibs cw (goStr "!help") exampleChannel none = some (some exampleHelpCmd, none) ∧
    exampleHelpCmd.Command ∈ exampleBot.disabledCmds ∧
    MessageReceived asciiLibs cw renamingDispatch exampleBot exampleChannel ⟨goStr "!help"⟩ none
      = some [Call.executeMessageReceiveFilters ⟨goStr "!help"⟩ (some exampleHelpCmd),
              Call.handleCmd { exampleHelpCmd with Command := goStr "ping" }] := by
  decide

/-- C7, amended: on a bot made by `New` the first `Close` completes normally and
leaves the done channel closed, and a second `Close` on that bot panics with
a close of a closed channel; so does every later one. -/
theorem Close_once (h : Handlers) (bc : Config) :
    ∃ b1, Close (New h bc) = Except.ok b1 ∧ b1.done = ChanState.closed ∧
      Close b1 = Except.error Panic.closeOfClosedChannel :=
  ⟨{ New h bc with done := ChanState.closed }, rfl, rfl, rfl⟩

/-- C7 as stated fails: the second `Close` on a fresh bot panics. -/
theorem Close_twice_panics :
    ∃ b1, Close (New ⟨none, none⟩ ⟨goStr "irc", goStr "irc.example.org"⟩) = Except.ok b1 ∧
      Close b1 = Except.error Panic.closeOfClosedChannel :=
  ⟨_, rfl, rfl⟩

/-- C8 at a stream whose setup function fails: the listener calls the error
callback once and then still registers the stream and calls
`handleMessageStream`. -/
theorem streamListener_after_failure :
    streamListener (New ⟨none, none⟩ ⟨goStr "irc", goStr "irc.example.org"⟩) failingStream
      = [Event.lockStreams,
         Event.erroredCall ErrorHandler.logErrorHandler (goStr "MessageStream feed failed ")
           (goStr "connection refused"),
         Event.registerStream ⟨goStr "irc", goStr "irc.example.org", goStr "feed"⟩
           ⟨ChanState.isOpen, ChanState.isOpen⟩,
         Event.unlockStreams,
         Event.handleMessageStream (goStr "feed") ⟨ChanState.isOpen, ChanState.isOpen⟩] := by
  decide

end GoChatBot
